import Mathlib

/-!
Verification of the viguno/seahorse HPO REST server core, shallowly embedded
from `src/server/run/mod.rs` and, for components whose code is not in the
source tree (the full-text index, the HGNC cross-link loader and the query
assembler), modelled from the specification.
-/

namespace Viguno

/-- Startup-time load errors (`anyhow::Error` messages on the load path of
`run` in `src/server/run/mod.rs`). -/
inductive LoadError where
  | mk (msg : String)
deriving DecidableEq, Repr

/-- Request-time query errors of the full-text index. -/
inductive QueryError where
  | InvalidQuery
deriving DecidableEq, Repr

/-- The `Match` enum of `src/server/run/mod.rs` (lines 70-83): how to perform
query matches in the API calls. -/
inductive Match where
  | Exact
  | Prefix
  | Suffix
  | Contains
deriving DecidableEq, Repr

/-- Rust `str::split(',')` on the underlying character list: splits at every
comma; the empty input yields one empty piece, and a trailing comma yields a
trailing empty piece. Used by both deserializer helpers. -/
def splitCommaAux : List Char → List (List Char)
  | [] => [[]]
  | c :: rest =>
    match splitCommaAux rest with
    | [] => if c = ',' then [[], []] else [[c]]
    | s :: ss => if c = ',' then [] :: s :: ss else (c :: s) :: ss

/-- `vec_str_deserialize` of `src/server/run/mod.rs` (lines 129-138): splits
the already-deserialized string at every comma into a list of strings. -/
def vec_str_deserialize (s : String) : List String :=
  (splitCommaAux s.data).map (fun cs => String.mk cs)

/-- `option_vec_str_deserialize` of `src/server/run/mod.rs` (lines 141-156):
returns `none` on the empty string and otherwise the comma-split list. -/
def option_vec_str_deserialize (s : String) : Option (List String) :=
  if s.isEmpty then
    none
  else
    some ((splitCommaAux s.data).map (fun cs => String.mk cs))

/-- Modelled from the spec: an `OntologyTerm` stanza of the Document Loader —
primary identifier, display name, synonym strings, optional free-text
definition. The Document Loader's code is not under `src/`. -/
structure OntologyTerm where
  termId : String
  name : String
  synonyms : List String
  defn : Option String
deriving DecidableEq, Repr

/-- Modelled from the spec: build-time and query-time normalization of the
Full-Text Index (case-fold, trim); the index code is not under `src/`. -/
def normalize (s : String) : String :=
  String.mk
    ((((s.data.dropWhile Char.isWhitespace).reverse.dropWhile
        Char.isWhitespace).reverse).map Char.toLower)

/-- Modelled from the spec: the searchable fields of a term — name, each
synonym, definition. -/
def termFields (t : OntologyTerm) : List String :=
  t.name :: t.synonyms ++ t.defn.toList

/-- Modelled from the spec: whether a normalized field value `f` matches the
normalized query `q` under a match mode. Exact requires a full
normalized-field match; Contains a contiguous substring anywhere; Prefix and
Suffix anchor at the whole-field boundary. -/
def matchesField (m : Match) (q f : String) : Bool :=
  match m with
  | .Exact => q == f
  | .Prefix => q.data.isPrefixOf f.data
  | .Suffix => q.data.isSuffixOf f.data
  | .Contains =>
    (List.range (f.data.length + 1)).any (fun i => q.data.isPrefixOf (f.data.drop i))

/-- Lexicographic byte-wise comparison of term identifiers, used for the
deterministic ascending ordering of search results. -/
def leChars : List Char → List Char → Bool
  | [], _ => true
  | _ :: _, [] => false
  | a :: as, b :: bs =>
    if a < b then true else if b < a then false else leChars as bs

/-- Ascending order on term identifiers. -/
def idLe (a b : String) : Prop :=
  leChars a.data b.data = true

instance : DecidableRel idLe :=
  fun _ _ => inferInstanceAs (Decidable (_ = true))

instance {ε α : Type} [DecidableEq ε] [DecidableEq α] : DecidableEq (Except ε α) :=
  fun a b =>
  match a, b with
  | .ok x, .ok y =>
    if h : x = y then isTrue (by rw [h]) else isFalse (by simp [h])
  | .error x, .error y =>
    if h : x = y then isTrue (by rw [h]) else isFalse (by simp [h])
  | .ok _, .error _ => isFalse (by simp)
  | .error _, .ok _ => isFalse (by simp)

/-- Modelled from the spec: `search(text, mode)` of the Full-Text Index, whose
code is not under `src/`. Empty query text fails with `InvalidQuery`;
otherwise the query is normalized identically to build time, matched against
every normalized searchable field of every term of the snapshot, and the
matching term identifiers are returned ordered ascending for determinism. -/
def search (idx : List OntologyTerm) (q : String) (m : Match) :
    Except QueryError (List String) :=
  if q = "" then
    Except.error QueryError.InvalidQuery
  else
    Except.ok
      (List.insertionSort idLe
        ((idx.filter
          (fun t => (termFields t).any
            (fun f => matchesField m (normalize q) (normalize f)))).map
          (fun t => t.termId)))

/-- `inverse_hashmap` (called at `src/server/run/mod.rs` line 266; its code is
not under `src/`): the reverse directional mapping, modelled from the spec on
association lists — every pair of one direction swapped into the other. -/
def inverse_hashmap {α β : Type} (m : List (α × β)) : List (β × α) :=
  m.map (fun p => (p.2, p.1))

/-- Modelled from the spec: the Query Assembler's gene-identifier resolution
toward namespace B, whose code is not under `src/`. Each identifier found in
the cross-reference table is resolved; each unknown identifier is dropped and
recorded as a per-item `ResolutionWarning`; the function is total, so an
unknown identifier never fails the whole batch. -/
def resolveGenesToB (xlink : List (String × String)) :
    List String → List String × List String
  | [] => ([], [])
  | id :: ids =>
    let acc := resolveGenesToB xlink ids
    match xlink.lookup id with
    | some b => (b :: acc.1, acc.2)
    | none => (acc.1, id :: acc.2)

/-- The `WebServerData` struct of `src/server/run/mod.rs` (lines 16-26): the
ontology, both cross-link maps, and the full-text index. The ontology payload
is abstract (it belongs to the external `hpo` crate). -/
structure WebServerData (O : Type) where
  ontology : O
  ncbi_to_hgnc : List (Nat × String)
  hgnc_to_ncbi : List (String × Nat)
  full_text_index : List OntologyTerm

/-- The load path of `run` in `src/server/run/mod.rs` (lines 256-292): load
the HPO ontology, load the NCBI-to-HGNC cross-link map and invert it, parse
the OBO document, build the full-text index — each step fallible and
sequenced with `?` — and only then construct the `WebServerData`. -/
def runServer {O D : Type}
    (load_hpo : Except LoadError O)
    (load_ncbi_to_hgnc : Except LoadError (List (Nat × String)))
    (load_obo : Except LoadError D)
    (indexNew : D → Except LoadError (List OntologyTerm)) :
    Except LoadError (WebServerData O) :=
  match load_hpo with
  | .error e => .error e
  | .ok ontology =>
    match load_ncbi_to_hgnc with
    | .error e => .error e
    | .ok ncbi_to_hgnc =>
      let hgnc_to_ncbi := inverse_hashmap ncbi_to_hgnc
      match load_obo with
      | .error e => .error e
      | .ok hpo_doc =>
        match indexNew hpo_doc with
        | .error e => .error e
        | .ok full_text_index =>
          .ok ⟨ontology, ncbi_to_hgnc, hgnc_to_ncbi, full_text_index⟩

/-- Modelled from the spec: a request handler reading only the shared
immutable server state — a free-text lookup delegating to the index with the
requested match mode (the handler modules are not under `src/`). -/
def handle {O : Type} (data : WebServerData O) (r : String × Match) :
    Except QueryError (List String) :=
  search data.full_text_index r.1 r.2

/-- Modelled from the spec: serving a sequence of requests against the shared
read-only state built at startup; each request is handled independently
against the same state and no handler mutates it. -/
def serve {O : Type} (data : WebServerData O) :
    List (String × Match) → List (Except QueryError (List String))
  | [] => []
  | r :: rs => handle data r :: serve data rs

/-! Helper lemmas shared by the claim theorems. -/

theorem leChars_cons (a b : Char) (as bs : List Char) :
    leChars (a :: as) (b :: bs) = true ↔ a < b ∨ (a = b ∧ leChars as bs = true) := by
  rcases lt_trichotomy a b with h | h | h
  · simp [leChars, h]
  · subst h
    simp [leChars, lt_irrefl]
  · simp [leChars, h, asymm h, (ne_of_gt h)]

theorem leChars_total : ∀ l₁ l₂ : List Char, leChars l₁ l₂ = true ∨ leChars l₂ l₁ = true
  | [], _ => Or.inl rfl
  | _ :: _, [] => Or.inr rfl
  | a :: as, b :: bs => by
    rcases lt_trichotomy a b with h | h | h
    · left
      simp [leChars, h]
    · subst h
      simpa [leChars, lt_irrefl] using leChars_total as bs
    · right
      simp [leChars, h]

theorem leChars_trans : ∀ l₁ l₂ l₃ : List Char,
    leChars l₁ l₂ = true → leChars l₂ l₃ = true → leChars l₁ l₃ = true
  | [], _, _, _, _ => rfl
  | _ :: _, [], _, h, _ => by simp [leChars] at h
  | _ :: _, _ :: _, [], _, h => by simp [leChars] at h
  | a :: as, b :: bs, c :: cs, h₁, h₂ => by
    rw [leChars_cons] at h₁ h₂ ⊢
    rcases h₁ with h₁ | ⟨rfl, h₁⟩
    · rcases h₂ with h₂ | ⟨rfl, h₂⟩
      · exact Or.inl (lt_trans h₁ h₂)
      · exact Or.inl h₁
    · rcases h₂ with h₂ | ⟨rfl, h₂⟩
      · exact Or.inl h₂
      · exact Or.inr ⟨rfl, leChars_trans as bs cs h₁ h₂⟩

theorem splitCommaAux_ne_nil : ∀ l : List Char, splitCommaAux l ≠ []
  | [] => by simp [splitCommaAux]
  | c :: rest => by
    cases h : splitCommaAux rest <;> simp [splitCommaAux, h] <;> split <;> simp

theorem intercalate_comma_cons (a b : List Char) (t : List (List Char)) :
    List.intercalate [','] (a :: b :: t) =
      a ++ ',' :: List.intercalate [','] (b :: t) := by
  simp [List.intercalate, List.intersperse]

theorem intercalate_splitCommaAux :
    ∀ l : List Char, List.intercalate [','] (splitCommaAux l) = l
  | [] => by simp [splitCommaAux, List.intercalate]
  | c :: rest => by
    have ih := intercalate_splitCommaAux rest
    cases h : splitCommaAux rest with
    | nil => exact absurd h (splitCommaAux_ne_nil rest)
    | cons s ss =>
      rw [h] at ih
      by_cases hc : c = ','
      · subst hc
        simp only [splitCommaAux, h, if_pos rfl, if_true]
        rw [intercalate_comma_cons]
        simpa using ih
      · simp only [splitCommaAux, h, if_neg hc]
        cases ss with
        | nil =>
          simp only [List.intercalate, List.intersperse] at ih ⊢
          simpa using ih
        | cons s' ss' =>
          rw [intercalate_comma_cons] at ih ⊢
          simpa using ih

theorem comma_notMem_splitCommaAux :
    ∀ (l : List Char), ∀ p ∈ splitCommaAux l, ',' ∉ p
  | [] => by simp [splitCommaAux]
  | c :: rest => by
    have ih := comma_notMem_splitCommaAux rest
    cases h : splitCommaAux rest with
    | nil => exact absurd h (splitCommaAux_ne_nil rest)
    | cons s ss =>
      rw [h] at ih
      by_cases hc : c = ','
      · subst hc
        simp only [splitCommaAux, h, if_pos rfl, if_true]
        intro p hp
        rw [List.mem_cons] at hp
        rcases hp with hp | hp
        · simp [hp]
        · exact ih p hp
      · simp only [splitCommaAux, h, if_neg hc]
        intro p hp
        rw [List.mem_cons] at hp
        rcases hp with hp | hp
        · subst hp
          intro hmem
          rw [List.mem_cons] at hmem
          rcases hmem with hmem | hmem
          · exact hc hmem.symm
          · exact ih s (List.mem_cons_self s ss) hmem
        · exact ih p (List.mem_cons_of_mem s hp)

/-- Membership characterization of a successful search: a term identifier is
returned exactly when some term of the snapshot carries it and one of its
normalized fields matches the normalized query under the requested mode. -/
theorem search_ok_mem {idx : List OntologyTerm} {q : String} {m : Match}
    {r : List String} (h : search idx q m = Except.ok r) (tid : String) :
    tid ∈ r ↔ ∃ t ∈ idx, t.termId = tid ∧
      ∃ f ∈ termFields t, matchesField m (normalize q) (normalize f) = true := by
  unfold search at h
  split at h
  · exact absurd h (by simp)
  · injection h with h
    subst h
    simp only [List.mem_insertionSort, List.mem_map, List.mem_filter,
      List.any_eq_true]
    constructor
    · rintro ⟨t, ⟨ht, f, hf, hm⟩, rfl⟩
      exact ⟨t, ht, rfl, f, hf, hm⟩
    · rintro ⟨t, ht, rfl, f, hf, hm⟩
      exact ⟨t, ⟨ht, f, hf, hm⟩, rfl⟩

/-- A successful search result is the ascending sort of the matched ids. -/
theorem search_ok_sorted {idx : List OntologyTerm} {q : String} {m : Match}
    {r : List String} (h : search idx q m = Except.ok r) :
    List.Sorted idLe r := by
  haveI : IsTotal String idLe := ⟨fun a b => leChars_total a.data b.data⟩
  haveI : IsTrans String idLe := ⟨fun a b c => leChars_trans a.data b.data c.data⟩
  unfold search at h
  split at h
  · exact absurd h (by simp)
  · injection h with h
    subst h
    exact List.sorted_insertionSort idLe _

/-- Association-list lookup agrees with membership when keys are unique. -/
theorem lookup_eq_some_iff_mem {α β : Type} [BEq α] [LawfulBEq α] :
    ∀ {l : List (α × β)}, (l.map Prod.fst).Nodup → ∀ {a : α} {b : β},
      ((a, b) ∈ l ↔ l.lookup a = some b)
  | [], _, a, b => by simp
  | (x, y) :: t, hnd, a, b => by
    simp only [List.map_cons, List.nodup_cons] at hnd
    by_cases hax : a = x
    · subst hax
      simp only [List.lookup_cons_self, List.mem_cons, Prod.mk.injEq, true_and,
        Option.some.injEq]
      constructor
      · rintro (hb | hmem)
        · exact hb.symm
        · exact absurd (List.mem_map_of_mem Prod.fst hmem) hnd.1
      · intro hb
        exact Or.inl hb.symm
    · have hbeq : (a == x) = false := beq_false_of_ne hax
      rw [List.lookup_cons, hbeq]
      simp only [List.mem_cons, Prod.mk.injEq]
      rw [← lookup_eq_some_iff_mem hnd.2]
      simp [hax]

/-- The reverse mapping holds the swapped pairs and nothing else. -/
theorem mem_inverse_hashmap {α β : Type} (m : List (α × β)) (a : α) (b : β) :
    (b, a) ∈ inverse_hashmap m ↔ (a, b) ∈ m := by
  unfold inverse_hashmap
  simp only [List.mem_map, Prod.mk.injEq]
  constructor
  · rintro ⟨⟨pa, pb⟩, hp, rfl, rfl⟩
    exact hp
  · intro hp
    exact ⟨(a, b), hp, rfl, rfl⟩

/-- Serving evaluates each request by the pure handler on the shared state. -/
theorem serve_getElem {O : Type} (data : WebServerData O) :
    ∀ (rs : List (String × Match)) (n : Nat),
      (serve data rs)[n]? = (rs[n]?).map (handle data)
  | [], n => by simp [serve]
  | r :: rs, 0 => by simp [serve]
  | r :: rs, n + 1 => by
    simpa [serve] using serve_getElem data rs n

theorem leChars_antisymm : ∀ l₁ l₂ : List Char,
    leChars l₁ l₂ = true → leChars l₂ l₁ = true → l₁ = l₂
  | [], [], _, _ => rfl
  | [], _ :: _, _, h => by simp [leChars] at h
  | _ :: _, [], h, _ => by simp [leChars] at h
  | a :: as, b :: bs, h₁, h₂ => by
    rw [leChars_cons] at h₁ h₂
    rcases h₁ with h₁ | ⟨rfl, h₁⟩
    · rcases h₂ with h₂ | ⟨rfl, h₂⟩
      · exact absurd h₂ (asymm h₁)
      · exact absurd h₁ (lt_irrefl _)
    · rcases h₂ with h₂ | ⟨h₂, h₂'⟩
      · exact absurd h₂ (lt_irrefl _)
      · rw [leChars_antisymm as bs h₁ h₂']

/-- What a successful startup implies: every load step succeeded and each
field of the server state is the result of its load step. -/
theorem runServer_ok {O D : Type} {o : Except LoadError O}
    {x : Except LoadError (List (Nat × String))} {d : Except LoadError D}
    {ix : D → Except LoadError (List OntologyTerm)} {s : WebServerData O}
    (h : runServer o x d ix = Except.ok s) :
    (∃ a, o = Except.ok a ∧ s.ontology = a) ∧
    (∃ b, x = Except.ok b ∧ s.ncbi_to_hgnc = b ∧
      s.hgnc_to_ncbi = inverse_hashmap b) ∧
    (∃ c i, d = Except.ok c ∧ ix c = Except.ok i ∧ s.full_text_index = i) := by
  cases o with
  | error e => simp [runServer, Except.bind] at h
  | ok a =>
    cases x with
    | error e => simp [runServer, Except.bind] at h
    | ok b =>
      cases d with
      | error e => simp [runServer, Except.bind] at h
      | ok c =>
        cases hic : ix c with
        | error e => simp [runServer, Except.bind, hic] at h
        | ok i =>
          simp only [runServer, Except.bind, hic, Except.pure] at h
          injection h with h
          subst h
          exact ⟨⟨a, rfl, rfl⟩, ⟨b, rfl, rfl, rfl⟩, ⟨c, i, rfl, hic, rfl⟩⟩

/-! The claim theorems. -/

/-- C1: Prefix and Suffix matching are anchored to whole normalized field
values, not sub-tokens: a Prefix search returns exactly the terms having some
normalized field of which the normalized query is a prefix of the whole
field value, a Suffix search those of which it is a suffix of the whole
field value; on the snapshot whose only term is HP:0001 "Abnormal gait",
`search("gait", Suffix)` returns `["HP:0001"]` and `search("abnormal",
Suffix)` returns `[]`. -/
theorem search_anchored_whole_field :
    (∀ (idx : List OntologyTerm) (q : String) (r : List String),
      search idx q Match.Prefix = Except.ok r →
      ∀ tid, tid ∈ r ↔ ∃ t ∈ idx, t.termId = tid ∧
        ∃ f ∈ termFields t, (normalize q).data.isPrefixOf (normalize f).data = true) ∧
    (∀ (idx : List OntologyTerm) (q : String) (r : List String),
      search idx q Match.Suffix = Except.ok r →
      ∀ tid, tid ∈ r ↔ ∃ t ∈ idx, t.termId = tid ∧
        ∃ f ∈ termFields t, (normalize q).data.isSuffixOf (normalize f).data = true) ∧
    search [⟨"HP:0001", "Abnormal gait", [], none⟩] "gait" Match.Suffix =
      Except.ok ["HP:0001"] ∧
    search [⟨"HP:0001", "Abnormal gait", [], none⟩] "abnormal" Match.Suffix =
      Except.ok [] := by
  refine ⟨?_, ?_, by decide, by decide⟩
  · intro idx q r h tid
    simpa [matchesField] using search_ok_mem h tid
  · intro idx q r h tid
    simpa [matchesField] using search_ok_mem h tid

/-- Witness for C1 on the one-term "Abnormal gait" snapshot. -/
theorem search_anchored_whole_field_witness :
    "HP:0001" ∈ (["HP:0001"] : List String) ↔
      ∃ t ∈ ([⟨"HP:0001", "Abnormal gait", [], none⟩] : List OntologyTerm),
        t.termId = "HP:0001" ∧ ∃ f ∈ termFields t,
          (normalize "gait").data.isSuffixOf (normalize f).data = true :=
  search_anchored_whole_field.2.1 [⟨"HP:0001", "Abnormal gait", [], none⟩]
    "gait" ["HP:0001"] (by decide) "HP:0001"

/-- C3: a successful search result sequence is ordered by ascending term
identifier, and it is the unique such ordering of the matched identifiers, so
the ordering is deterministic for a fixed index. -/
theorem search_results_sorted :
    ∀ (idx : List OntologyTerm) (q : String) (m : Match) (r : List String),
      search idx q m = Except.ok r →
      List.Sorted idLe r ∧
      ∀ r' : List String, List.Perm r' r → List.Sorted idLe r' → r' = r := by
  intro idx q m r h
  haveI : IsAntisymm String idLe :=
    ⟨fun a b h₁ h₂ => String.ext (leChars_antisymm a.data b.data h₁ h₂)⟩
  refine ⟨search_ok_sorted h, ?_⟩
  intro r' hperm hsorted
  exact List.eq_of_perm_of_sorted hperm hsorted (search_ok_sorted h)

/-- Witness for C3: a two-term snapshot whose ids arrive out of order. -/
theorem search_results_sorted_witness :
    List.Sorted idLe ["HP:0001", "HP:0002"] :=
  (search_results_sorted
    [⟨"HP:0002", "Gait", [], none⟩, ⟨"HP:0001", "Abnormal gait", [], none⟩]
    "gait" Match.Suffix ["HP:0001", "HP:0002"] (by decide)).1

/-- C2: for every match mode, searching with empty query text fails with
`InvalidQuery` rather than returning any result sequence; in particular
`search("", Exact)` fails with `InvalidQuery`. -/
theorem search_empty_query_invalid :
    ∀ (idx : List OntologyTerm) (m : Match),
      search idx "" m = Except.error QueryError.InvalidQuery := by
  intro idx m
  rfl

/-- C8: the match-mode parameter is a closed variant with exactly the four
alternatives Exact, Prefix, Suffix and Contains — every value of `Match` is
one of these four and no other mode is representable. -/
theorem match_mode_closed :
    ∀ m : Match, m = Match.Exact ∨ m = Match.Prefix ∨ m = Match.Suffix ∨
      m = Match.Contains := by
  intro m
  cases m
  · exact Or.inl rfl
  · exact Or.inr (Or.inl rfl)
  · exact Or.inr (Or.inr (Or.inl rfl))
  · exact Or.inr (Or.inr (Or.inr rfl))

/-- C9: the optional comma-separated-list deserializer returns `none` exactly
on the empty input string, otherwise `some` of the comma-split list, and a
non-empty input never yields `some` of an empty list. -/
theorem option_vec_str_deserialize_spec :
    ∀ s : String,
      (option_vec_str_deserialize s = none ↔ s = "") ∧
      (s ≠ "" → option_vec_str_deserialize s = some (vec_str_deserialize s)) ∧
      (∀ l, option_vec_str_deserialize s = some l → l ≠ []) := by
  intro s
  refine ⟨⟨?_, ?_⟩, ?_, ?_⟩
  · intro h
    unfold option_vec_str_deserialize at h
    split at h
    · exact (String.isEmpty_iff s).mp (by assumption)
    · exact absurd h (by simp)
  · intro h
    subst h
    rfl
  · intro hne
    have h : s.isEmpty = false := by
      rcases Bool.eq_false_or_eq_true s.isEmpty with h | h
      · exact absurd ((String.isEmpty_iff s).mp h) hne
      · exact h
    unfold option_vec_str_deserialize vec_str_deserialize
    simp [h]
  · intro l hl
    unfold option_vec_str_deserialize at hl
    split at hl
    · exact absurd hl (by simp)
    · injection hl with hl
      subst hl
      intro hnil
      rw [List.map_eq_nil_iff] at hnil
      exact splitCommaAux_ne_nil s.data hnil

/-- Witness for C9 at the concrete input `"a,b"`. -/
theorem option_vec_str_deserialize_spec_witness :
    option_vec_str_deserialize "a,b" = some (vec_str_deserialize "a,b") ∧
    (["a", "b"] : List String) ≠ [] :=
  ⟨(option_vec_str_deserialize_spec "a,b").2.1 (by decide),
   (option_vec_str_deserialize_spec "a,b").2.2 ["a", "b"] (by decide)⟩

/-- C10: the non-optional comma-separated-list deserializer splits the input
at every comma (joining the comma-free pieces back with commas recovers the
input) and never returns an empty list; the empty input string yields the
one-element list holding the empty string. -/
theorem vec_str_deserialize_spec :
    (∀ s : String, vec_str_deserialize s ≠ []) ∧
    vec_str_deserialize "" = [""] ∧
    (∀ s : String,
      List.intercalate [','] ((vec_str_deserialize s).map String.data) = s.data ∧
      ∀ p ∈ vec_str_deserialize s, ',' ∉ p.data) := by
  refine ⟨?_, rfl, ?_⟩
  · intro s hnil
    unfold vec_str_deserialize at hnil
    rw [List.map_eq_nil_iff] at hnil
    exact splitCommaAux_ne_nil s.data hnil
  · intro s
    constructor
    · unfold vec_str_deserialize
      rw [List.map_map]
      have hcomp : (String.data ∘ fun cs => String.mk cs) = id := rfl
      rw [hcomp, List.map_id]
      exact intercalate_splitCommaAux s.data
    · intro p hp
      unfold vec_str_deserialize at hp
      rw [List.mem_map] at hp
      rcases hp with ⟨cs, hcs, rfl⟩
      simpa using comma_notMem_splitCommaAux s.data cs hcs

/-- Witness for C10 at the concrete input `"a,b"`. -/
theorem vec_str_deserialize_spec_witness :
    ',' ∉ ("a" : String).data :=
  (vec_str_deserialize_spec.2.2 "a,b").2 "a" (by decide)

/-- C4: for every cross-reference pair (a, b) loaded (unique on both sides),
the A-to-B map sends a to b and the B-to-A map sends b to a, and every entry
of one directional mapping has the corresponding entry in the other. -/
theorem xlink_symmetry :
    ∀ pairs : List (Nat × String),
      (pairs.map Prod.fst).Nodup → (pairs.map Prod.snd).Nodup →
      (∀ a b, (a, b) ∈ pairs →
        pairs.lookup a = some b ∧
        (inverse_hashmap pairs).lookup b = some a) ∧
      (∀ a b, pairs.lookup a = some b →
        (inverse_hashmap pairs).lookup b = some a) ∧
      (∀ a b, (inverse_hashmap pairs).lookup b = some a →
        pairs.lookup a = some b) := by
  intro pairs hA hB
  have hBkeys : ((inverse_hashmap pairs).map Prod.fst).Nodup := by
    unfold inverse_hashmap
    rw [List.map_map]
    have hcomp : (Prod.fst ∘ fun p : Nat × String => (p.2, p.1)) = Prod.snd := rfl
    rw [hcomp]
    exact hB
  refine ⟨?_, ?_, ?_⟩
  · intro a b hmem
    exact ⟨(lookup_eq_some_iff_mem hA).mp hmem,
      (lookup_eq_some_iff_mem hBkeys).mp ((mem_inverse_hashmap pairs a b).mpr hmem)⟩
  · intro a b hl
    have hmem := (lookup_eq_some_iff_mem hA).mpr hl
    exact (lookup_eq_some_iff_mem hBkeys).mp
      ((mem_inverse_hashmap pairs a b).mpr hmem)
  · intro a b hl
    have hmem := (mem_inverse_hashmap pairs a b).mp
      ((lookup_eq_some_iff_mem hBkeys).mpr hl)
    exact (lookup_eq_some_iff_mem hA).mp hmem

/-- Witness for C4 on the one-pair table (1234, "HGNC:5678"). -/
theorem xlink_symmetry_witness :
    ([(1234, "HGNC:5678")] : List (Nat × String)).lookup 1234 =
      some "HGNC:5678" ∧
    (inverse_hashmap [(1234, "HGNC:5678")]).lookup "HGNC:5678" = some 1234 :=
  (xlink_symmetry [(1234, "HGNC:5678")] (by decide) (by decide)).1
    1234 "HGNC:5678" (by decide)

/-- C5: in a batch of gene identifiers, every identifier known to the
cross-reference table is still resolved, every unknown identifier is dropped
into the per-item warning list rather than failing the request; concretely,
with the table ("1234", "HGNC:5678"), the batch ["1234", "9999"] resolves to
["HGNC:5678"] with the single warning ["9999"]. -/
theorem batch_unknown_ids_warn :
    (∀ (xlink : List (String × String)) (ids : List String) (id : String),
      id ∈ ids →
        (∀ b, xlink.lookup id = some b → b ∈ (resolveGenesToB xlink ids).1) ∧
        (xlink.lookup id = none → id ∈ (resolveGenesToB xlink ids).2)) ∧
    resolveGenesToB [("1234", "HGNC:5678")] ["1234", "9999"] =
      (["HGNC:5678"], ["9999"]) := by
  refine ⟨?_, by decide⟩
  intro xlink ids
  induction ids with
  | nil =>
    intro id h
    simp at h
  | cons i is ih =>
    intro id hmem
    rw [List.mem_cons] at hmem
    constructor
    · intro b hb
      rcases hmem with rfl | hmem
      · simp only [resolveGenesToB, hb]
        exact List.mem_cons_self _ _
      · have hrec := (ih id hmem).1 b hb
        simp only [resolveGenesToB]
        cases hl : xlink.lookup i
        · simpa using hrec
        · simpa using Or.inr hrec
    · intro hnone
      rcases hmem with rfl | hmem
      · simp only [resolveGenesToB, hnone]
        exact List.mem_cons_self _ _
      · have hrec := (ih id hmem).2 hnone
        simp only [resolveGenesToB]
        cases hl : xlink.lookup i
        · simpa using Or.inr hrec
        · simpa using hrec

/-- Witness for C5: the known identifier resolves, the unknown one warns. -/
theorem batch_unknown_ids_warn_witness :
    "HGNC:5678" ∈ (resolveGenesToB [("1234", "HGNC:5678")] ["1234", "9999"]).1 ∧
    "9999" ∈ (resolveGenesToB [("1234", "HGNC:5678")] ["1234", "9999"]).2 :=
  ⟨(batch_unknown_ids_warn.1 [("1234", "HGNC:5678")] ["1234", "9999"] "1234"
      (by decide)).1 "HGNC:5678" (by decide),
   (batch_unknown_ids_warn.1 [("1234", "HGNC:5678")] ["1234", "9999"] "9999"
      (by decide)).2 (by decide)⟩

/-- C6: if any load step fails (ontology load, cross-link load, OBO parse,
index build), startup returns the error and the server state is never
constructed; conversely a constructed state presupposes that every load step
succeeded. -/
theorem load_failure_halts :
    ∀ {O D : Type} (o : Except LoadError O)
      (x : Except LoadError (List (Nat × String)))
      (d : Except LoadError D)
      (ix : D → Except LoadError (List OntologyTerm)),
      (∀ e, o = Except.error e → runServer o x d ix = Except.error e) ∧
      (∀ e, x = Except.error e → ∀ s, runServer o x d ix ≠ Except.ok s) ∧
      (∀ e, d = Except.error e → ∀ s, runServer o x d ix ≠ Except.ok s) ∧
      (∀ c e, d = Except.ok c → ix c = Except.error e →
        ∀ s, runServer o x d ix ≠ Except.ok s) ∧
      (∀ s, runServer o x d ix = Except.ok s →
        (∃ a, o = Except.ok a) ∧ (∃ b, x = Except.ok b) ∧
        (∃ c i, d = Except.ok c ∧ ix c = Except.ok i)) := by
  intro O D o x d ix
  refine ⟨?_, ?_, ?_, ?_, ?_⟩
  · intro e he
    subst he
    rfl
  · intro e he s hok
    rcases (runServer_ok hok).2.1 with ⟨b, hb, _⟩
    rw [he] at hb
    exact absurd hb (by simp)
  · intro e he s hok
    rcases (runServer_ok hok).2.2 with ⟨c, i, hc, _, _⟩
    rw [he] at hc
    exact absurd hc (by simp)
  · intro c e hc hie s hok
    rcases (runServer_ok hok).2.2 with ⟨c', i, hc', hi, _⟩
    rw [hc] at hc'
    injection hc' with hc'
    subst hc'
    rw [hie] at hi
    exact absurd hi (by simp)
  · intro s hok
    rcases runServer_ok hok with ⟨⟨a, ha, _⟩, ⟨b, hb, _⟩, ⟨c, i, hc, hi, _⟩⟩
    exact ⟨⟨a, ha⟩, ⟨b, hb⟩, ⟨c, i, hc, hi⟩⟩

/-- Witness for C6 with concrete load results over `Nat` payloads. -/
theorem load_failure_halts_witness :
    runServer (Except.error (LoadError.mk "boom") : Except LoadError Nat)
      (Except.ok ([] : List (Nat × String)))
      (Except.ok (0 : Nat)) (fun _ => Except.ok []) =
      Except.error (LoadError.mk "boom") :=
  (load_failure_halts
    (Except.error (LoadError.mk "boom") : Except LoadError Nat)
    (Except.ok ([] : List (Nat × String)))
    (Except.ok (0 : Nat)) (fun _ => Except.ok [])).1
    (LoadError.mk "boom") rfl

/-- C7: the server state handed to request handling is exactly the one built
once at startup (its index is the one produced by the index-build step), every
request is answered by the pure handler on that same immutable state, and
identical queries in a request sequence receive identical results. -/
theorem immutable_state_deterministic :
    ∀ {O D : Type} (o : Except LoadError O)
      (x : Except LoadError (List (Nat × String)))
      (d : Except LoadError D)
      (ix : D → Except LoadError (List OntologyTerm))
      (data : WebServerData O),
      runServer o x d ix = Except.ok data →
      (∃ c i, d = Except.ok c ∧ ix c = Except.ok i ∧
        data.full_text_index = i) ∧
      (∀ (reqs : List (String × Match)) (n : Nat),
        (serve data reqs)[n]? = (reqs[n]?).map (handle data)) ∧
      (∀ (reqs : List (String × Match)) (i j : Nat),
        reqs[i]? = reqs[j]? →
        (serve data reqs)[i]? = (serve data reqs)[j]?) := by
  intro O D o x d ix data h
  refine ⟨(runServer_ok h).2.2, fun reqs n => serve_getElem data reqs n, ?_⟩
  intro reqs i j hij
  rw [serve_getElem, serve_getElem, hij]

/-- Witness for C7: a concrete startup and a request list repeating a query. -/
theorem immutable_state_deterministic_witness :
    (serve (WebServerData.mk (0 : Nat) [] []
        [⟨"HP:0001", "Abnormal gait", [], none⟩])
      [("gait", Match.Suffix), ("gait", Match.Suffix)])[0]? =
    (serve (WebServerData.mk (0 : Nat) [] []
        [⟨"HP:0001", "Abnormal gait", [], none⟩])
      [("gait", Match.Suffix), ("gait", Match.Suffix)])[1]? :=
  (immutable_state_deterministic (Except.ok (0 : Nat)) (Except.ok [])
    (Except.ok (0 : Nat))
    (fun _ => Except.ok [⟨"HP:0001", "Abnormal gait", [], none⟩])
    (WebServerData.mk (0 : Nat) [] [] [⟨"HP:0001", "Abnormal gait", [], none⟩])
    rfl).2.2 [("gait", Match.Suffix), ("gait", Match.Suffix)] 0 1 rfl

end Viguno
